import Mathlib

/-!
  A shallow embedding of the Nadaraya-Watson regression / conditional density
  estimation engine declared in
  src/fastlib2/contrib/dongryel/lprcde/nwrcde.h (class NWRCde).

  The header contains the full bodies of the constructor, the destructor,
  Compute and Init; those are embedded directly from the source.  The bodies
  of NWRCdeCanonical_, NWRCdeBase_ and PostProcessQueryTree_ live in
  nwrcde_impl.h, which is not among the sources; those parts are modelled
  from the specification (each such definition carries a doc comment saying
  so) and claims about them are settled against the model.

  Real numbers of the program are embedded as rationals; machine floating
  point is not modelled.
-/

namespace NWRCdeSpec

/-- A numeric data matrix in the fastlib style: entries are addressed as
get row col; data points are columns (n_cols points of dimension n_rows). -/
structure DataMatrix where
  n_rows : Nat
  n_cols : Nat
  get : Nat → Nat → ℚ

/-- A binary spatial tree over point indices (GeneralBinarySpaceTree in the
source).  A leaf holds the list of indices of the points it owns; an
internal node has two children.  The geometry (ball bounds) is not kept in
the node: the min/max squared node-to-node distances enter through the
DualParams bound functions below, as the spec prescribes for the opaque
SpatialTree collaborator. -/
inductive Tree where
  | leaf : List Nat → Tree
  | node : Tree → Tree → Tree
deriving DecidableEq

/-- The point indices owned by a tree, left to right. -/
def Tree.points : Tree → List Nat
  | .leaf ps => ps
  | .node l r => l.points ++ r.points

/-- The number of points a tree owns (the node count statistic). -/
def Tree.count (t : Tree) : Nat := t.points.length

/-- Structural size, used as the termination measure of the recursion. -/
def Tree.size : Tree → Nat
  | .leaf _ => 1
  | .node l r => l.size + r.size + 1

/-- s occurs as a subtree of t (reflexively). -/
inductive IsSubtree : Tree → Tree → Prop
  | refl (t : Tree) : IsSubtree t t
  | left {s l r : Tree} : IsSubtree s l → IsSubtree s (.node l r)
  | right {s l r : Tree} : IsSubtree s r → IsSubtree s (.node l r)

@[simp] lemma points_leaf (ps : List Nat) : (Tree.leaf ps).points = ps := rfl

@[simp] lemma points_node (l r : Tree) :
    (Tree.node l r).points = l.points ++ r.points := rfl

lemma count_node (l r : Tree) :
    (Tree.node l r).count = l.count + r.count := by
  simp [Tree.count]

lemma size_pos (t : Tree) : 0 < t.size := by
  cases t <;> simp [Tree.size]

/-- The parameter module (struct datanode) as read by NWRCde through the
fx_param calls visible in nwrcde.h: leaflen (default 20), bandwidth
(required) and probability (default 1). -/
structure Datanode where
  leaflen : Option Nat
  bandwidth : Option ℚ
  probability : Option ℚ

/-- The engine state: the NWRCdeGlobal parameter block parameters_ as it is
used from nwrcde.h.  The field bandwidth models the data member
parameters_.bandwidth, which Init never assigns; kernel_bandwidth models the
bandwidth the kernel object kernel_ was configured with. -/
structure EngineState where
  module : Datanode
  rset : DataMatrix
  rset_targets : List ℚ
  rset_target_sum : ℚ
  rroot : Option Tree
  bandwidth : ℚ
  kernel_bandwidth : ℚ

/-- The default constructor NWRCde() from nwrcde.h lines 162-164: it assigns
only parameters_.rroot = NULL; every other member keeps whatever
default-constructed value it had, modelled by an arbitrary pre-state. -/
def defaultConstruct (pre : EngineState) : EngineState :=
  { pre with rroot := none }

/-- The destructor from nwrcde.h lines 168-170 runs delete parameters_.rroot.
This returns the list of tree objects the delete expression deallocates:
C++ guarantees that delete of a null pointer deallocates nothing. -/
def destructorFrees (s : EngineState) : List Tree :=
  match s.rroot with
  | none => []
  | some t => [t]

/-- Failure modes of Init that are visible in nwrcde.h: the required
bandwidth parameter being absent (fx_param_double_req is fatal), and the
DEBUG_ASSERT on the column counts firing in a debug build. -/
inductive InitFailure where
  | missingBandwidth
  | debugAssertFailed
deriving DecidableEq

/-- Shallow embedding of NWRCde::Init from nwrcde.h lines 199-227.
debugMode says whether DEBUG_ASSERT is compiled in; makeTree stands for the
external proximity::MakeGenMetricTree.  Faithful details: the target vector
is filled from row 0 of reference_targets only; the reference tree is built
before the bandwidth parameter is read; the fetched bandwidth value is
stored in a local that is never used, and kernel_.Init receives
parameters_.bandwidth instead (exactly as the source reads). -/
def nwrcdeInit (debugMode : Bool) (makeTree : DataMatrix → Nat → Tree)
    (st : EngineState) (references reference_targets : DataMatrix)
    (module_in : Datanode) : Except InitFailure EngineState :=
  let leaflen := module_in.leaflen.getD 20
  let rset := references
  if debugMode = true ∧ references.n_cols ≠ reference_targets.n_cols then
    .error .debugAssertFailed
  else
    let targets :=
      (List.range reference_targets.n_cols).map (fun i => reference_targets.get 0 i)
    let target_sum := targets.sum
    let rroot := makeTree rset leaflen
    match module_in.bandwidth with
    | none => .error .missingBandwidth
    | some _bandwidth =>
        .ok { st with
              module := module_in
              rset := rset
              rset_targets := targets
              rset_target_sum := target_sum
              rroot := some rroot
              kernel_bandwidth := st.bandwidth }

/-- Modelled from the spec (section 7 and the QueryResult description): the
final estimate computed by PostProcessQueryTree_, whose body is in
nwrcde_impl.h and not among the sources.  A zero denominator is not an
error; the estimate is the fixed sentinel value (the spec allows
not-a-number or zero, chosen consistently; the model fixes zero). -/
def nwrcdeSentinel : ℚ := 0

/-- Modelled from the spec: the per-point finalization of
PostProcessQueryTree_ (estimate = numerator/denominator, or the sentinel
when the denominator is zero). -/
def finalEstimate (numerator denominator : ℚ) : ℚ :=
  if denominator = 0 then nwrcdeSentinel else numerator / denominator

/-- Modelled from the spec (sections 3, 4.4 and 6): the global read-only
parameters of the dual-tree engine as seen by NWRCdeCanonical_, whose body
is in nwrcde_impl.h and not among the sources.  K is the kernel on squared
distances, kmax its value at 0 (the known maximum), t the reference targets,
dist2 the squared distance between a query index and a reference index,
dlo/dhi the min/max squared distance between the bounding regions of two
nodes (the opaque SpatialTree geometry), relError and absThreshold and prob
the error budget, totalRefCount the total reference mass, and
mcMinCount/sampler the Monte-Carlo sampling collaborator. -/
structure DualParams where
  K : ℚ → ℚ
  kmax : ℚ
  t : Nat → ℚ
  dist2 : Nat → Nat → ℚ
  dlo : Tree → Tree → ℚ
  dhi : Tree → Tree → ℚ
  relError : ℚ
  absThreshold : ℚ
  prob : ℚ
  totalRefCount : Nat
  mcMinCount : Nat
  sampler : Tree → List Nat

/-- Modelled from the spec (section 3): the per-query-node QuerySummary
bracket on the numerator and denominator plus the pruned-point count. -/
structure Summary where
  numLo : ℚ
  numHi : ℚ
  denLo : ℚ
  denHi : ℚ
  nPruned : Nat

/-- Per-point numerator/denominator accumulators (NWRCdeQueryResult). -/
structure QueryResults where
  num : Nat → ℚ
  den : Nat → ℚ

/-- The lower end of the kernel-value bracket for a node pair: the kernel at
the maximum squared distance between the two bounding regions. -/
def kernelLo (p : DualParams) (qn rn : Tree) : ℚ := p.K (p.dhi qn rn)

/-- The upper end of the kernel-value bracket for a node pair: the kernel at
the minimum squared distance between the two bounding regions. -/
def kernelHi (p : DualParams) (qn rn : Tree) : ℚ := p.K (p.dlo qn rn)

/-- The target-value sum statistic of a reference node. -/
def refTargetSum (p : DualParams) (rn : Tree) : ℚ := (rn.points.map p.t).sum

/-- Modelled from the spec (section 4.4): the share of the global relative
error allotted to a reference node, proportional to its share
referenceNode.count / totalReferenceCount of the reference mass. -/
def epsShare (p : DualParams) (rn : Tree) : ℚ :=
  p.relError * rn.count / p.totalRefCount

/-- Modelled from the spec (section 4.4): the deterministic finite-difference
prune test.  The width of the denominator value bracket the reference node
could contribute, expressed relative to the query node's current lower bound
on the denominator, must not exceed the epsilon share of the node; when that
lower bound is below absThreshold the test degrades to an absolute one. -/
def detPrune (p : DualParams) (S : Summary) (qn rn : Tree) : Bool :=
  let width : ℚ := (rn.count : ℚ) * (kernelHi p qn rn - kernelLo p qn rn)
  if S.denLo < p.absThreshold then
    decide (width ≤ epsShare p rn * p.absThreshold)
  else
    decide (width ≤ epsShare p rn * S.denLo)

/-- Modelled from the spec: tightening a QuerySummary after the contribution
of a reference node has been resolved.  The lower bounds gain the node-level
kernel lower bound; the upper bounds lose the slack between the trivial
per-point maximum count * kmax and the node-level upper bound. -/
def tightenBounds (p : DualParams) (qn rn : Tree) (S : Summary) : Summary :=
  { numLo := S.numLo + refTargetSum p rn * kernelLo p qn rn
    numHi := S.numHi - ((rn.count : ℚ) * p.kmax - refTargetSum p rn * kernelHi p qn rn)
    denLo := S.denLo + (rn.count : ℚ) * kernelLo p qn rn
    denHi := S.denHi - (rn.count : ℚ) * (p.kmax - kernelHi p qn rn)
    nPruned := S.nPruned }

/-- Modelled from the spec: the finite-difference pruned contribution folded
into the query node (the midpoint of the node-pair kernel bracket, scaled by
the count for the denominator and by the target sum for the numerator),
applied to every point of the query node.  In the source this passes through
the Postponed accumulator and is flushed down before the call returns; the
model applies the flushed-down value directly. -/
def applyFD (p : DualParams) (qn rn : Tree) (r : QueryResults) : QueryResults :=
  let c := (kernelLo p qn rn + kernelHi p qn rn) / 2
  { num := fun i => if i ∈ qn.points then r.num i + refTargetSum p rn * c else r.num i
    den := fun i => if i ∈ qn.points then r.den i + (rn.count : ℚ) * c else r.den i }

/-- Modelled from the spec: the Monte-Carlo pruned contribution, a sample
mean over the sampled reference points scaled to the node count. -/
def applyMC (p : DualParams) (qn rn : Tree) (r : QueryResults) : QueryResults :=
  let s := p.sampler rn
  { num := fun i => if i ∈ qn.points then
        r.num i + (rn.count : ℚ) * ((s.map (fun j => p.K (p.dist2 i j) * p.t j)).sum / s.length)
      else r.num i
    den := fun i => if i ∈ qn.points then
        r.den i + (rn.count : ℚ) * ((s.map (fun j => p.K (p.dist2 i j))).sum / s.length)
      else r.den i }

/-- Modelled from the spec (section 4.4 step 2) and the NWRCdeBase_
declaration in nwrcde.h: the exhaustive leaf-pair base case, accumulating
kernel(squaredDistance)*target into the numerator and kernel(squaredDistance)
into the denominator for every query-reference point pair, directly in the
point-level results. -/
def NWRCdeBase_ (p : DualParams) (qs rs : List Nat) (r : QueryResults) : QueryResults :=
  { num := fun i => if i ∈ qs then
        r.num i + (rs.map (fun j => p.K (p.dist2 i j) * p.t j)).sum
      else r.num i
    den := fun i => if i ∈ qs then
        r.den i + (rs.map (fun j => p.K (p.dist2 i j))).sum
      else r.den i }

/-- The join of the summaries of two query children, used to refresh the
parent bracket after both children have been visited: the parent bracket
must cover every point of both children. -/
def Summary.join (a b : Summary) : Summary :=
  { numLo := min a.numLo b.numLo
    numHi := max a.numHi b.numHi
    denLo := min a.denLo b.denLo
    denHi := max a.denHi b.denHi
    nPruned := min a.nPruned b.nPruned }

/-- Modelled from the spec (section 4.4) and the NWRCdeCanonical_
declaration in nwrcde.h: the canonical dual-tree recursion.  Step 1 tries
the deterministic finite-difference prune, then (only when the required
probability is below one and the reference node is large enough to sample
economically) the Monte-Carlo prune; a successful prune folds the
contribution into the query node and returns true without visiting
descendants.  Step 2, at a leaf pair, runs the exhaustive base case and
returns false.  Step 3 splits the reference node first when it has children
(else the query node), visits the nearer pair first, threads the summary and
results through the two sub-calls, and returns true only when both sub-calls
returned true. -/
def NWRCdeCanonical_ (p : DualParams) :
    Tree → Tree → Summary → QueryResults → Bool × Summary × QueryResults
  | qn, rn, S, r =>
    if detPrune p S qn rn then
      (true, { tightenBounds p qn rn S with nPruned := S.nPruned + rn.count },
       applyFD p qn rn r)
    else if p.prob < 1 ∧ p.mcMinCount ≤ rn.count then
      (true, { tightenBounds p qn rn S with nPruned := S.nPruned + rn.count },
       applyMC p qn rn r)
    else
      match qn, rn with
      | .leaf qs, .leaf rs =>
          (false, tightenBounds p (.leaf qs) (.leaf rs) S, NWRCdeBase_ p qs rs r)
      | q, .node rl rr =>
          if p.dlo q rl ≤ p.dlo q rr then
            let a := NWRCdeCanonical_ p q rl S r
            let b := NWRCdeCanonical_ p q rr a.2.1 a.2.2
            (a.1 && b.1, b.2)
          else
            let a := NWRCdeCanonical_ p q rr S r
            let b := NWRCdeCanonical_ p q rl a.2.1 a.2.2
            (a.1 && b.1, b.2)
      | .node ql qr, .leaf rs =>
          if p.dlo ql (.leaf rs) ≤ p.dlo qr (.leaf rs) then
            let a := NWRCdeCanonical_ p ql (.leaf rs) S r
            let b := NWRCdeCanonical_ p qr (.leaf rs) S a.2.2
            (a.1 && b.1, (Summary.join a.2.1 b.2.1, b.2.2))
          else
            let a := NWRCdeCanonical_ p qr (.leaf rs) S r
            let b := NWRCdeCanonical_ p ql (.leaf rs) S a.2.2
            (a.1 && b.1, (Summary.join a.2.1 b.2.1, b.2.2))
  termination_by qn rn _ _ => qn.size + rn.size
  decreasing_by all_goals (simp [Tree.size]; omega)

/-- The naive exhaustive denominator for one query point: the sum over all
reference points of the node of kernel(squaredDistance).  This definition
follows the words of the spec (section 8, exactness property) and is the
yardstick the recursion is compared against. -/
def naiveDen (p : DualParams) (i : Nat) (rn : Tree) : ℚ :=
  (rn.points.map (fun j => p.K (p.dist2 i j))).sum

/-- The naive exhaustive numerator for one query point: the sum over all
reference points of the node of kernel(squaredDistance)*target.  Follows the
words of the spec (section 8, exactness property). -/
def naiveNum (p : DualParams) (i : Nat) (rn : Tree) : ℚ :=
  (rn.points.map (fun j => p.K (p.dist2 i j) * p.t j)).sum

/-- The all-zero per-point accumulators (query_results->Init()). -/
def zeroResults : QueryResults := { num := fun _ => 0, den := fun _ => 0 }

/-- Modelled from the spec (section 4.3): PreProcessQueryTree_ initializes
every summary to the widest bracket, numerator and denominator in
the interval from 0 to totalReferenceCount * kernelMax, n_pruned = 0. -/
def initSummary (p : DualParams) : Summary :=
  { numLo := 0, numHi := (p.totalRefCount : ℚ) * p.kmax
    denLo := 0, denHi := (p.totalRefCount : ℚ) * p.kmax, nPruned := 0 }

/-- Shallow embedding of NWRCde::Compute from nwrcde.h lines 174-197.  The
query tree is built over a permuted copy of the query set: ofn is the
old_from_new_queries array produced by the external tree build, mapping the
permuted position to the caller's original index, so the engine evaluates
distances through ofn.  Exactly as in the source, the recursion runs over
the permuted set and the permutation is never applied afterwards: the
per-point results are returned as the recursion left them. -/
def compute (p : DualParams) (ofn : Nat → Nat) (qroot rroot : Tree) : QueryResults :=
  let pPerm := { p with dist2 := fun i j => p.dist2 (ofn i) j }
  (NWRCdeCanonical_ pPerm qroot rroot (initSummary p) zeroResults).2.2

/-! Concrete fixtures used by witnesses and counterexamples. -/

/-- A 1 x 1 data matrix whose single entry is 0. -/
def oneColMatrix : DataMatrix := { n_rows := 1, n_cols := 1, get := fun _ _ => 0 }

/-- A trivial stand-in for the external tree builder: a single leaf on
point 0. -/
def leafTreeBuild : DataMatrix → Nat → Tree := fun _ _ => .leaf [0]

/-- A concrete engine pre-state (the default-constructed garbage values). -/
def anyEngineState : EngineState :=
  { module := { leaflen := none, bandwidth := none, probability := none }
    rset := oneColMatrix, rset_targets := [], rset_target_sum := 0
    rroot := none, bandwidth := 0, kernel_bandwidth := 0 }

/-- C9: Init fills the stored reference-target vector with exactly row 0 of
the target matrix, one entry per column, and the stored global target sum is
the sum of those entries; matrices agreeing on row 0 (and column count) are
indistinguishable to Init. -/
theorem init_reads_targets_row0 (dbg : Bool) (mk : DataMatrix → Nat → Tree)
    (st : EngineState) (refs tgts : DataMatrix) (m : Datanode) (s' : EngineState)
    (h : nwrcdeInit dbg mk st refs tgts m = .ok s') :
    s'.rset_targets.length = tgts.n_cols
    ∧ (∀ i, i < tgts.n_cols → s'.rset_targets[i]? = some (tgts.get 0 i))
    ∧ s'.rset_target_sum = ((List.range tgts.n_cols).map (fun i => tgts.get 0 i)).sum
    ∧ (∀ tgts2 : DataMatrix, tgts2.n_cols = tgts.n_cols →
        (∀ i, i < tgts.n_cols → tgts2.get 0 i = tgts.get 0 i) →
        nwrcdeInit dbg mk st refs tgts2 m = nwrcdeInit dbg mk st refs tgts m) := by
  unfold nwrcdeInit at h
  split at h
  · exact absurd h (by simp)
  · split at h
    · exact absurd h (by simp)
    · rename_i hbw
      rw [Except.ok.injEq] at h
      subst h
      refine ⟨by simp, ?_, by simp, ?_⟩
      · intro i hi
        simp [List.getElem?_map, List.getElem?_range hi]
      · intro tgts2 hcols hpt
        have hmap : (List.range tgts.n_cols).map (fun i => tgts2.get 0 i)
            = (List.range tgts.n_cols).map (fun i => tgts.get 0 i) :=
          List.map_congr_left (fun a ha => hpt a (List.mem_range.1 ha))
        unfold nwrcdeInit
        rw [hcols, hmap]

/-- Closed instance of init_reads_targets_row0 at a concrete successful
Init call. -/
theorem init_reads_targets_row0_witness :
    ∃ s' : EngineState,
      nwrcdeInit false leafTreeBuild anyEngineState oneColMatrix oneColMatrix
        { leaflen := none, bandwidth := some 1, probability := none } = .ok s'
      ∧ s'.rset_targets.length = oneColMatrix.n_cols
      ∧ s'.rset_target_sum
          = ((List.range oneColMatrix.n_cols).map (fun i => oneColMatrix.get 0 i)).sum := by
  refine ⟨_, rfl, ?_⟩
  have h := init_reads_targets_row0 false leafTreeBuild anyEngineState
    oneColMatrix oneColMatrix
    { leaflen := none, bandwidth := some 1, probability := none } _ rfl
  exact ⟨h.1, h.2.2.1⟩

/-- C10: the default constructor sets the reference-tree root to null, and
the destructor run immediately afterwards deallocates nothing (delete of a
null pointer is a no-op), so no invalid deallocation occurs. -/
theorem default_construct_destruct_safe (pre : EngineState) :
    (defaultConstruct pre).rroot = none
    ∧ destructorFrees (defaultConstruct pre) = [] :=
  ⟨rfl, rfl⟩

/-- C4 counterexample: the claim demands that Init fail fatally whenever the
bandwidth is nonpositive, but with bandwidth -1 (and matching target and
reference counts) the embedded Init succeeds. -/
theorem init_accepts_negative_bandwidth :
    ((-1 : ℚ) ≤ 0)
    ∧ (nwrcdeInit true leafTreeBuild anyEngineState oneColMatrix oneColMatrix
        { leaflen := none, bandwidth := some (-1), probability := none }).isOk = true :=
  ⟨by norm_num, rfl⟩

/-- C4 (amended): Init raises no ConfigurationError.  Whenever the bandwidth
parameter is present — with any value, including nonpositive ones — Init
succeeds if the target and reference column counts match (and always
succeeds when debug assertions are compiled out); a count mismatch is caught
only by the debug-build assertion, not by a ConfigurationError. -/
theorem init_validation_behavior (dbg : Bool) (mk : DataMatrix → Nat → Tree)
    (st : EngineState) (refs tgts : DataMatrix) (m : Datanode) (b : ℚ)
    (hbw : m.bandwidth = some b) :
    (refs.n_cols = tgts.n_cols → (nwrcdeInit dbg mk st refs tgts m).isOk = true)
    ∧ (dbg = true → refs.n_cols ≠ tgts.n_cols →
        nwrcdeInit dbg mk st refs tgts m = .error .debugAssertFailed)
    ∧ (dbg = false → (nwrcdeInit dbg mk st refs tgts m).isOk = true) := by
  refine ⟨fun hcols => ?_, fun hdbg hcols => ?_, fun hdbg => ?_⟩
  · simp [nwrcdeInit, hcols, hbw, Except.isOk, Except.toBool]
  · simp [nwrcdeInit, hdbg, hcols]
  · simp [nwrcdeInit, hdbg, hbw, Except.isOk, Except.toBool]

/-- Closed instance of init_validation_behavior at a concrete nonpositive
bandwidth. -/
theorem init_validation_behavior_witness :
    (oneColMatrix.n_cols = oneColMatrix.n_cols →
      (nwrcdeInit true leafTreeBuild anyEngineState oneColMatrix oneColMatrix
        { leaflen := none, bandwidth := some (-1), probability := none }).isOk = true)
    ∧ (true = true → oneColMatrix.n_cols ≠ oneColMatrix.n_cols →
        nwrcdeInit true leafTreeBuild anyEngineState oneColMatrix oneColMatrix
          { leaflen := none, bandwidth := some (-1), probability := none }
          = .error .debugAssertFailed)
    ∧ (true = false →
        (nwrcdeInit true leafTreeBuild anyEngineState oneColMatrix oneColMatrix
          { leaflen := none, bandwidth := some (-1), probability := none }).isOk = true) :=
  init_validation_behavior true leafTreeBuild anyEngineState oneColMatrix
    oneColMatrix { leaflen := none, bandwidth := some (-1), probability := none }
    (-1) rfl

/-- C8: code bug — Init fetches the required bandwidth option into a local
variable that it never uses, and configures the kernel with the unassigned
member parameters_.bandwidth instead.  Here the supplied option is 2, the
stale member value is 37, and the kernel ends up configured with 37. -/
theorem kernel_bandwidth_not_from_options :
    ∃ s' : EngineState,
      nwrcdeInit false leafTreeBuild { anyEngineState with bandwidth := 37 }
        oneColMatrix oneColMatrix
        { leaflen := none, bandwidth := some 2, probability := none } = .ok s'
      ∧ s'.kernel_bandwidth = 37 ∧ s'.kernel_bandwidth ≠ 2 :=
  ⟨_, rfl, rfl, by norm_num⟩

/-- C6: a zero denominator is not an error: the estimate is the fixed
sentinel value; a nonzero denominator yields numerator/denominator. -/
theorem final_estimate_total (r : QueryResults) (i : Nat) :
    (r.den i = 0 → finalEstimate (r.num i) (r.den i) = nwrcdeSentinel)
    ∧ (r.den i ≠ 0 → finalEstimate (r.num i) (r.den i) = r.num i / r.den i) := by
  constructor <;> intro h <;> simp [finalEstimate, h]

/-- Results fixture with a degenerate point 0 and a regular point 1. -/
def degenerateResults : QueryResults :=
  { num := fun _ => 3, den := fun i => if i = 0 then 0 else 2 }

/-- Closed instance of final_estimate_total on the degenerate fixture. -/
theorem final_estimate_total_witness :
    finalEstimate (degenerateResults.num 0) (degenerateResults.den 0) = nwrcdeSentinel
    ∧ finalEstimate (degenerateResults.num 1) (degenerateResults.den 1)
        = degenerateResults.num 1 / degenerateResults.den 1 :=
  ⟨(final_estimate_total degenerateResults 0).1 rfl,
   (final_estimate_total degenerateResults 1).2 (by norm_num [degenerateResults])⟩

/-! C2: the error-budget split.  The epsilon share of a reference node is
proportional to its point count, and any family of pairwise-disjoint
subtrees of the reference tree (in particular the reference nodes pruned
along one root-to-leaf query traversal, which are pairwise disjoint) has
shares summing to at most the global relative error. -/

lemma subtree_points_sublist {s t : Tree} (h : IsSubtree s t) :
    s.points.Sublist t.points := by
  induction h with
  | refl => exact List.Sublist.refl _
  | left h ih => exact ih.trans (List.sublist_append_left _ _)
  | right h ih => exact ih.trans (List.sublist_append_right _ _)

lemma flatten_points_length (L : List Tree) :
    ((L.map Tree.points).flatten).length = (L.map Tree.count).sum := by
  induction L with
  | nil => simp
  | cons s L ih => simp [Tree.count, ih]

lemma flatten_points_nodup (L : List Tree)
    (hsnd : ∀ s ∈ L, s.points.Nodup)
    (hd : L.Pairwise (fun a b => a.points.Disjoint b.points)) :
    ((L.map Tree.points).flatten).Nodup := by
  induction L with
  | nil => simp
  | cons s L ih =>
      simp only [List.map_cons, List.flatten_cons]
      rw [List.nodup_append]
      rcases List.pairwise_cons.1 hd with ⟨hds, hdL⟩
      refine ⟨hsnd s (by simp), ih (fun u hu => hsnd u (by simp [hu])) hdL, ?_⟩
      intro x hx hx2
      rcases List.mem_flatten.1 hx2 with ⟨l, hl, hxl⟩
      rcases List.mem_map.1 hl with ⟨u, huL, rfl⟩
      exact hds u huL hx hxl

lemma disjoint_subtrees_count_le (root : Tree) (L : List Tree)
    (hnd : root.points.Nodup)
    (hs : ∀ s ∈ L, IsSubtree s root)
    (hd : L.Pairwise (fun a b => a.points.Disjoint b.points)) :
    (L.map Tree.count).sum ≤ root.count := by
  have hnodup : ((L.map Tree.points).flatten).Nodup :=
    flatten_points_nodup L
      (fun s hsL => ((subtree_points_sublist (hs s hsL)).nodup hnd)) hd
  have hsub : (L.map Tree.points).flatten ⊆ root.points := by
    intro x hx
    rcases List.mem_flatten.1 hx with ⟨l, hl, hxl⟩
    rcases List.mem_map.1 hl with ⟨u, huL, rfl⟩
    exact (subtree_points_sublist (hs u huL)).subset hxl
  have := (hnodup.subperm hsub).length_le
  rwa [flatten_points_length] at this

lemma epsShare_sum (p : DualParams) (L : List Tree) :
    (L.map (epsShare p)).sum
      = p.relError / p.totalRefCount * (((L.map Tree.count).sum : ℕ) : ℚ) := by
  induction L with
  | nil => simp
  | cons s L ih =>
      simp only [List.map_cons, List.sum_cons, ih, epsShare]
      push_cast
      ring

/-- C2: the epsilon allotted to a reference node for the deterministic prune
test is relative_error * count / totalReferenceCount (the very quantity the
prune test detPrune uses), and for any family of pairwise-disjoint reference
subtrees — in particular the nodes deterministically pruned along any single
root-to-leaf traversal, which partition distinct parts of the reference
tree — the allotted shares sum to at most the configured global relative
error. -/
theorem eps_budget_conservation (p : DualParams) (root : Tree) (L : List Tree)
    (hN : p.totalRefCount = root.count) (hε : 0 ≤ p.relError)
    (hnd : root.points.Nodup)
    (hs : ∀ s ∈ L, IsSubtree s root)
    (hd : L.Pairwise (fun a b => a.points.Disjoint b.points)) :
    (∀ s ∈ L, epsShare p s = p.relError * s.count / p.totalRefCount)
    ∧ (L.map (epsShare p)).sum ≤ p.relError := by
  refine ⟨fun s _ => rfl, ?_⟩
  have hcount : (L.map Tree.count).sum ≤ root.count :=
    disjoint_subtrees_count_le root L hnd hs hd
  rcases Nat.eq_zero_or_pos root.count with h0 | hpos
  · have hz : (L.map Tree.count).sum = 0 := Nat.le_zero.mp (h0 ▸ hcount)
    rw [epsShare_sum, hz]
    simpa using hε
  · have hNpos : (0 : ℚ) < (p.totalRefCount : ℚ) := by
      rw [hN]; exact_mod_cast hpos
    have hSum : (((L.map Tree.count).sum : ℕ) : ℚ) ≤ (p.totalRefCount : ℚ) := by
      rw [hN]; exact_mod_cast hcount
    have hSum0 : (0 : ℚ) ≤ (((L.map Tree.count).sum : ℕ) : ℚ) := by positivity
    calc (L.map (epsShare p)).sum
        = p.relError / p.totalRefCount * (((L.map Tree.count).sum : ℕ) : ℚ) :=
          epsShare_sum p L
      _ ≤ p.relError / p.totalRefCount * (p.totalRefCount : ℚ) := by
          exact mul_le_mul_of_nonneg_left hSum (div_nonneg hε hNpos.le)
      _ = p.relError := div_mul_cancel₀ _ hNpos.ne'

/-- Fixture parameters for the budget witness. -/
def budgetParams : DualParams :=
  { K := fun _ => 1, kmax := 1, t := fun _ => 1, dist2 := fun _ _ => 0
    dlo := fun _ _ => 0, dhi := fun _ _ => 0, relError := 1/2, absThreshold := 1
    prob := 1, totalRefCount := 2, mcMinCount := 1000, sampler := fun _ => [] }

/-- Fixture reference tree for the budget witness. -/
def budgetRoot : Tree := .node (.leaf [0]) (.leaf [1])

/-- Closed instance of eps_budget_conservation: both leaves of a two-point
reference tree pruned. -/
theorem eps_budget_conservation_witness :
    (∀ s ∈ [Tree.leaf [0], Tree.leaf [1]],
      epsShare budgetParams s
        = budgetParams.relError * s.count / budgetParams.totalRefCount)
    ∧ ([Tree.leaf [0], Tree.leaf [1]].map (epsShare budgetParams)).sum
        ≤ budgetParams.relError := by
  refine eps_budget_conservation budgetParams budgetRoot _ rfl (by norm_num [budgetParams])
    (by simp [budgetRoot, Tree.points]) ?_ ?_
  · intro s hs
    rcases List.mem_cons.1 hs with rfl | hs
    · exact IsSubtree.left (IsSubtree.refl _)
    · rcases List.mem_cons.1 hs with rfl | hs
      · exact IsSubtree.right (IsSubtree.refl _)
      · simp at hs
  · refine List.Pairwise.cons ?_ (List.pairwise_singleton _ _)
    intro b hb
    rcases List.mem_singleton.1 hb with rfl
    intro x hx1 hx2
    simp [Tree.points] at hx1 hx2
    omega

/-! Case-by-case unfolding equations for the canonical recursion. -/

lemma canonical_prune_eq (p : DualParams) (qn rn : Tree) (S : Summary)
    (r : QueryResults) (h : detPrune p S qn rn = true) :
    NWRCdeCanonical_ p qn rn S r
      = (true, { tightenBounds p qn rn S with nPruned := S.nPruned + rn.count },
         applyFD p qn rn r) := by
  rw [NWRCdeCanonical_.eq_def]
  simp [h]

lemma canonical_mc_eq (p : DualParams) (qn rn : Tree) (S : Summary)
    (r : QueryResults) (h : detPrune p S qn rn = false)
    (h2 : p.prob < 1 ∧ p.mcMinCount ≤ rn.count) :
    NWRCdeCanonical_ p qn rn S r
      = (true, { tightenBounds p qn rn S with nPruned := S.nPruned + rn.count },
         applyMC p qn rn r) := by
  rw [NWRCdeCanonical_.eq_def]
  simp [h, h2.1, h2.2]

lemma canonical_base_eq (p : DualParams) (qs rs : List Nat) (S : Summary)
    (r : QueryResults) (h : detPrune p S (.leaf qs) (.leaf rs) = false)
    (h2 : ¬(p.prob < 1 ∧ p.mcMinCount ≤ (Tree.leaf rs).count)) :
    NWRCdeCanonical_ p (.leaf qs) (.leaf rs) S r
      = (false, tightenBounds p (.leaf qs) (.leaf rs) S, NWRCdeBase_ p qs rs r) := by
  rw [NWRCdeCanonical_]
  simp [h, h2]

lemma canonical_rsplit_near_eq (p : DualParams) (q rl rr : Tree) (S : Summary)
    (r : QueryResults) (h : detPrune p S q (.node rl rr) = false)
    (h2 : ¬(p.prob < 1 ∧ p.mcMinCount ≤ (Tree.node rl rr).count))
    (h3 : p.dlo q rl ≤ p.dlo q rr) :
    NWRCdeCanonical_ p q (.node rl rr) S r
      = ((NWRCdeCanonical_ p q rl S r).1
          && (NWRCdeCanonical_ p q rr (NWRCdeCanonical_ p q rl S r).2.1
               (NWRCdeCanonical_ p q rl S r).2.2).1,
         (NWRCdeCanonical_ p q rr (NWRCdeCanonical_ p q rl S r).2.1
           (NWRCdeCanonical_ p q rl S r).2.2).2) := by
  cases q with
  | leaf qs => rw [NWRCdeCanonical_]; simp [h, h2, h3]
  | node a b => rw [NWRCdeCanonical_]; simp [h, h2, h3]

lemma canonical_rsplit_far_eq (p : DualParams) (q rl rr : Tree) (S : Summary)
    (r : QueryResults) (h : detPrune p S q (.node rl rr) = false)
    (h2 : ¬(p.prob < 1 ∧ p.mcMinCount ≤ (Tree.node rl rr).count))
    (h3 : ¬ p.dlo q rl ≤ p.dlo q rr) :
    NWRCdeCanonical_ p q (.node rl rr) S r
      = ((NWRCdeCanonical_ p q rr S r).1
          && (NWRCdeCanonical_ p q rl (NWRCdeCanonical_ p q rr S r).2.1
               (NWRCdeCanonical_ p q rr S r).2.2).1,
         (NWRCdeCanonical_ p q rl (NWRCdeCanonical_ p q rr S r).2.1
           (NWRCdeCanonical_ p q rr S r).2.2).2) := by
  cases q with
  | leaf qs => rw [NWRCdeCanonical_]; simp [h, h2, h3]
  | node a b => rw [NWRCdeCanonical_]; simp [h, h2, h3]

lemma canonical_qsplit_near_eq (p : DualParams) (ql qr : Tree) (rs : List Nat)
    (S : Summary) (r : QueryResults)
    (h : detPrune p S (.node ql qr) (.leaf rs) = false)
    (h2 : ¬(p.prob < 1 ∧ p.mcMinCount ≤ (Tree.leaf rs).count))
    (h3 : p.dlo ql (.leaf rs) ≤ p.dlo qr (.leaf rs)) :
    NWRCdeCanonical_ p (.node ql qr) (.leaf rs) S r
      = ((NWRCdeCanonical_ p ql (.leaf rs) S r).1
          && (NWRCdeCanonical_ p qr (.leaf rs) S
               (NWRCdeCanonical_ p ql (.leaf rs) S r).2.2).1,
         (Summary.join (NWRCdeCanonical_ p ql (.leaf rs) S r).2.1
            (NWRCdeCanonical_ p qr (.leaf rs) S
              (NWRCdeCanonical_ p ql (.leaf rs) S r).2.2).2.1,
          (NWRCdeCanonical_ p qr (.leaf rs) S
            (NWRCdeCanonical_ p ql (.leaf rs) S r).2.2).2.2)) := by
  rw [NWRCdeCanonical_]
  simp [h, h2, h3]

lemma canonical_qsplit_far_eq (p : DualParams) (ql qr : Tree) (rs : List Nat)
    (S : Summary) (r : QueryResults)
    (h : detPrune p S (.node ql qr) (.leaf rs) = false)
    (h2 : ¬(p.prob < 1 ∧ p.mcMinCount ≤ (Tree.leaf rs).count))
    (h3 : ¬ p.dlo ql (.leaf rs) ≤ p.dlo qr (.leaf rs)) :
    NWRCdeCanonical_ p (.node ql qr) (.leaf rs) S r
      = ((NWRCdeCanonical_ p qr (.leaf rs) S r).1
          && (NWRCdeCanonical_ p ql (.leaf rs) S
               (NWRCdeCanonical_ p qr (.leaf rs) S r).2.2).1,
         (Summary.join (NWRCdeCanonical_ p qr (.leaf rs) S r).2.1
            (NWRCdeCanonical_ p ql (.leaf rs) S
              (NWRCdeCanonical_ p qr (.leaf rs) S r).2.2).2.1,
          (NWRCdeCanonical_ p ql (.leaf rs) S
            (NWRCdeCanonical_ p qr (.leaf rs) S r).2.2).2.2)) := by
  rw [NWRCdeCanonical_]
  simp [h, h2, h3]

/-- C3: the return-value protocol of the canonical recursion.  A successful
prune bound (deterministic or Monte-Carlo) returns true without visiting
descendants; the leaf-pair base case returns false; and in every recursive
case the result is the conjunction of the two recursive sub-calls, so it is
true only if both sub-calls returned true. -/
theorem canonical_return_protocol (p : DualParams) :
    (∀ qn rn S r, detPrune p S qn rn = true → (NWRCdeCanonical_ p qn rn S r).1 = true)
    ∧ (∀ qn rn S r, detPrune p S qn rn = false →
        p.prob < 1 → p.mcMinCount ≤ rn.count →
        (NWRCdeCanonical_ p qn rn S r).1 = true)
    ∧ (∀ qs rs S r, detPrune p S (.leaf qs) (.leaf rs) = false →
        ¬(p.prob < 1 ∧ p.mcMinCount ≤ (Tree.leaf rs).count) →
        (NWRCdeCanonical_ p (.leaf qs) (.leaf rs) S r).1 = false)
    ∧ (∀ q rl rr S r, detPrune p S q (.node rl rr) = false →
        ¬(p.prob < 1 ∧ p.mcMinCount ≤ (Tree.node rl rr).count) →
        p.dlo q rl ≤ p.dlo q rr →
        (NWRCdeCanonical_ p q (.node rl rr) S r).1
          = ((NWRCdeCanonical_ p q rl S r).1
              && (NWRCdeCanonical_ p q rr (NWRCdeCanonical_ p q rl S r).2.1
                   (NWRCdeCanonical_ p q rl S r).2.2).1))
    ∧ (∀ q rl rr S r, detPrune p S q (.node rl rr) = false →
        ¬(p.prob < 1 ∧ p.mcMinCount ≤ (Tree.node rl rr).count) →
        ¬ p.dlo q rl ≤ p.dlo q rr →
        (NWRCdeCanonical_ p q (.node rl rr) S r).1
          = ((NWRCdeCanonical_ p q rr S r).1
              && (NWRCdeCanonical_ p q rl (NWRCdeCanonical_ p q rr S r).2.1
                   (NWRCdeCanonical_ p q rr S r).2.2).1))
    ∧ (∀ ql qr rs S r, detPrune p S (.node ql qr) (.leaf rs) = false →
        ¬(p.prob < 1 ∧ p.mcMinCount ≤ (Tree.leaf rs).count) →
        p.dlo ql (.leaf rs) ≤ p.dlo qr (.leaf rs) →
        (NWRCdeCanonical_ p (.node ql qr) (.leaf rs) S r).1
          = ((NWRCdeCanonical_ p ql (.leaf rs) S r).1
              && (NWRCdeCanonical_ p qr (.leaf rs) S
                   (NWRCdeCanonical_ p ql (.leaf rs) S r).2.2).1))
    ∧ (∀ ql qr rs S r, detPrune p S (.node ql qr) (.leaf rs) = false →
        ¬(p.prob < 1 ∧ p.mcMinCount ≤ (Tree.leaf rs).count) →
        ¬ p.dlo ql (.leaf rs) ≤ p.dlo qr (.leaf rs) →
        (NWRCdeCanonical_ p (.node ql qr) (.leaf rs) S r).1
          = ((NWRCdeCanonical_ p qr (.leaf rs) S r).1
              && (NWRCdeCanonical_ p ql (.leaf rs) S
                   (NWRCdeCanonical_ p qr (.leaf rs) S r).2.2).1)) := by
  refine ⟨?_, ?_, ?_, ?_, ?_, ?_, ?_⟩
  · intro qn rn S r h
    rw [canonical_prune_eq p qn rn S r h]
  · intro qn rn S r h h1 h2
    rw [canonical_mc_eq p qn rn S r h ⟨h1, h2⟩]
  · intro qs rs S r h h2
    rw [canonical_base_eq p qs rs S r h h2]
  · intro q rl rr S r h h2 h3
    rw [canonical_rsplit_near_eq p q rl rr S r h h2 h3]
  · intro q rl rr S r h h2 h3
    rw [canonical_rsplit_far_eq p q rl rr S r h h2 h3]
  · intro ql qr rs S r h h2 h3
    rw [canonical_qsplit_near_eq p ql qr rs S r h h2 h3]
  · intro ql qr rs S r h h2 h3
    rw [canonical_qsplit_far_eq p ql qr rs S r h h2 h3]

/-- Fixture parameters where the deterministic prune fails at the root pair
(relative error 0 with a non-constant kernel), exercising the base case. -/
def noPruneParams : DualParams :=
  { K := fun x => 1 - x/2, kmax := 1, t := fun _ => 1
    dist2 := fun i _ => if i = 0 then 0 else 1
    dlo := fun _ _ => 0, dhi := fun _ _ => 1
    relError := 0, absThreshold := 1, prob := 1
    totalRefCount := 1, mcMinCount := 1000, sampler := fun _ => [] }

/-- Fixture parameters where the deterministic prune succeeds at once
(constant kernel, so the finite-difference bracket has width zero). -/
def exactParams : DualParams :=
  { K := fun _ => 1, kmax := 1, t := fun _ => 1, dist2 := fun _ _ => 0
    dlo := fun _ _ => 0, dhi := fun _ _ => 0
    relError := 0, absThreshold := 1, prob := 1
    totalRefCount := 1, mcMinCount := 1000, sampler := fun _ => [] }

/-- Closed instance of canonical_return_protocol: a pruned pair returns
true, a base-case pair returns false. -/
theorem canonical_return_protocol_witness :
    (NWRCdeCanonical_ exactParams (.leaf [0]) (.leaf [0])
        (initSummary exactParams) zeroResults).1 = true
    ∧ (NWRCdeCanonical_ noPruneParams (.leaf [0]) (.leaf [0])
        (initSummary noPruneParams) zeroResults).1 = false := by
  have h1 : detPrune exactParams (initSummary exactParams) (.leaf [0]) (.leaf [0]) = true := by
    norm_num [detPrune, epsShare, kernelLo, kernelHi, initSummary, exactParams, Tree.count]
  have h2 : detPrune noPruneParams (initSummary noPruneParams) (.leaf [0]) (.leaf [0]) = false := by
    norm_num [detPrune, epsShare, kernelLo, kernelHi, initSummary, noPruneParams, Tree.count]
  have h3 : ¬(noPruneParams.prob < 1 ∧ noPruneParams.mcMinCount ≤ (Tree.leaf [0]).count) := by
    norm_num [noPruneParams]
  exact ⟨(canonical_return_protocol exactParams).1 _ _ _ _ h1,
    (canonical_return_protocol noPruneParams).2.2.1 _ _ _ _ h2 h3⟩

/-! C1: at relative error 0 and probability 1 the recursion reproduces the
naive exhaustive sums exactly. -/

lemma naiveDen_node (p : DualParams) (i : Nat) (l r : Tree) :
    naiveDen p i (.node l r) = naiveDen p i l + naiveDen p i r := by
  simp [naiveDen]

lemma naiveNum_node (p : DualParams) (i : Nat) (l r : Tree) :
    naiveNum p i (.node l r) = naiveNum p i l + naiveNum p i r := by
  simp [naiveNum]

lemma sum_map_const_eq {l : List Nat} {f : Nat → ℚ} {c : ℚ}
    (h : ∀ j ∈ l, f j = c) : (l.map f).sum = l.length * c := by
  induction l with
  | nil => simp
  | cons a l ih =>
      simp only [List.map_cons, List.sum_cons, List.length_cons,
        h a (List.mem_cons_self a l), ih (fun j hj => h j (List.mem_cons_of_mem a hj))]
      push_cast
      ring

/-- At relative error zero a successful deterministic prune can only happen
when the node-pair kernel bracket has width zero, in which case the
finite-difference midpoint contribution is exactly the naive sum. -/
lemma detPrune_exact (p : DualParams) (S : Summary) (qn rn : Tree)
    (hε : p.relError = 0)
    (hmono : ∀ a b : ℚ, a ≤ b → p.K b ≤ p.K a)
    (hbounds : ∀ i ∈ qn.points, ∀ j ∈ rn.points,
      p.dlo qn rn ≤ p.dist2 i j ∧ p.dist2 i j ≤ p.dhi qn rn)
    (hdet : detPrune p S qn rn = true) (i : Nat) (hi : i ∈ qn.points) :
    (rn.count : ℚ) * ((kernelLo p qn rn + kernelHi p qn rn) / 2) = naiveDen p i rn
    ∧ refTargetSum p rn * ((kernelLo p qn rn + kernelHi p qn rn) / 2)
        = naiveNum p i rn := by
  have hw : (rn.count : ℚ) * (kernelHi p qn rn - kernelLo p qn rn) ≤ 0 := by
    unfold detPrune at hdet
    split at hdet <;>
      simpa [epsShare, hε] using of_decide_eq_true hdet
  cases hrn : rn.points with
  | nil =>
      simp [naiveDen, naiveNum, refTargetSum, Tree.count, hrn]
  | cons j0 js =>
      have hcnt : (0 : ℚ) < (rn.count : ℚ) := by
        simp [Tree.count, hrn]
        positivity
      have hkk : kernelHi p qn rn ≤ kernelLo p qn rn := by nlinarith
      have hvals : ∀ j ∈ rn.points, p.K (p.dist2 i j) = kernelLo p qn rn := by
        intro j hj
        have hb := hbounds i hi j hj
        have h1 : p.K (p.dist2 i j) ≤ kernelHi p qn rn := hmono _ _ hb.1
        have h2 : kernelLo p qn rn ≤ p.K (p.dist2 i j) := hmono _ _ hb.2
        linarith
      have hEq : kernelHi p qn rn = kernelLo p qn rn := by
        have hb := hbounds i hi j0 (by rw [hrn]; exact List.mem_cons_self _ _)
        have h1 : p.K (p.dist2 i j0) ≤ kernelHi p qn rn := hmono _ _ hb.1
        have h2 : kernelLo p qn rn ≤ p.K (p.dist2 i j0) := hmono _ _ hb.2
        linarith
      constructor
      · rw [naiveDen, sum_map_const_eq hvals, hEq, Tree.count]
        ring
      · have hterm : ∀ j ∈ rn.points,
            p.K (p.dist2 i j) * p.t j = kernelLo p qn rn * p.t j :=
          fun j hj => by rw [hvals j hj]
        rw [naiveNum, List.map_congr_left hterm, List.sum_map_mul_left, hEq,
          refTargetSum]
        ring

/-- The exactness induction: at relative error 0 and probability at least 1
the recursion adds to each query point of the query node exactly the naive
exhaustive sums over the reference node, and leaves every other point
untouched. -/
lemma canonical_exact_aux (p : DualParams)
    (hε : p.relError = 0) (hp : 1 ≤ p.prob)
    (hmono : ∀ a b : ℚ, a ≤ b → p.K b ≤ p.K a)
    (hbounds : ∀ qs rs : Tree, ∀ i ∈ qs.points, ∀ j ∈ rs.points,
      p.dlo qs rs ≤ p.dist2 i j ∧ p.dist2 i j ≤ p.dhi qs rs) :
    ∀ (n : Nat) (qn rn : Tree) (S : Summary) (r : QueryResults),
      qn.size + rn.size ≤ n → qn.points.Nodup →
      (∀ i ∈ qn.points,
        (NWRCdeCanonical_ p qn rn S r).2.2.den i = r.den i + naiveDen p i rn
        ∧ (NWRCdeCanonical_ p qn rn S r).2.2.num i = r.num i + naiveNum p i rn)
      ∧ (∀ i, i ∉ qn.points →
        (NWRCdeCanonical_ p qn rn S r).2.2.den i = r.den i
        ∧ (NWRCdeCanonical_ p qn rn S r).2.2.num i = r.num i) := by
  intro n
  induction n with
  | zero =>
      intro qn rn S r hsz
      exact absurd hsz (by have h1 := size_pos qn; have h2 := size_pos rn; omega)
  | succ n ih =>
      intro qn rn S r hsz hnd
      by_cases hdet : detPrune p S qn rn = true
      · rw [canonical_prune_eq p qn rn S r hdet]
        constructor
        · intro i hi
          have hx := detPrune_exact p S qn rn hε hmono (hbounds qn rn) hdet i hi
          constructor
          · simp only [applyFD, if_pos hi]
            rw [hx.1]
          · simp only [applyFD, if_pos hi]
            rw [hx.2]
        · intro i hi
          constructor <;> simp [applyFD, hi]
      · have hdet' : detPrune p S qn rn = false := by
          simpa using hdet
        have hmc : ¬(p.prob < 1 ∧ p.mcMinCount ≤ rn.count) := by
          rintro ⟨h1, _⟩
          exact absurd hp (not_le.2 h1)
        cases rn with
        | node rl rr =>
            have hszl : qn.size + rl.size ≤ n := by
              have := size_pos rr
              simp [Tree.size] at hsz ⊢
              omega
            have hszr : qn.size + rr.size ≤ n := by
              have := size_pos rl
              simp [Tree.size] at hsz ⊢
              omega
            by_cases hord : p.dlo qn rl ≤ p.dlo qn rr
            · rw [canonical_rsplit_near_eq p qn rl rr S r hdet' hmc hord]
              have ha := ih qn rl S r hszl hnd
              have hb := ih qn rr (NWRCdeCanonical_ p qn rl S r).2.1
                (NWRCdeCanonical_ p qn rl S r).2.2 hszr hnd
              constructor
              · intro i hi
                constructor
                · have h1 := (ha.1 i hi).1
                  have h2 := (hb.1 i hi).1
                  dsimp only
                  rw [h2, h1, naiveDen_node]
                  ring
                · have h1 := (ha.1 i hi).2
                  have h2 := (hb.1 i hi).2
                  dsimp only
                  rw [h2, h1, naiveNum_node]
                  ring
              · intro i hi
                constructor
                · dsimp only
                  rw [(hb.2 i hi).1, (ha.2 i hi).1]
                · dsimp only
                  rw [(hb.2 i hi).2, (ha.2 i hi).2]
            · rw [canonical_rsplit_far_eq p qn rl rr S r hdet' hmc hord]
              have ha := ih qn rr S r hszr hnd
              have hb := ih qn rl (NWRCdeCanonical_ p qn rr S r).2.1
                (NWRCdeCanonical_ p qn rr S r).2.2 hszl hnd
              constructor
              · intro i hi
                constructor
                · have h1 := (ha.1 i hi).1
                  have h2 := (hb.1 i hi).1
                  dsimp only
                  rw [h2, h1, naiveDen_node]
                  ring
                · have h1 := (ha.1 i hi).2
                  have h2 := (hb.1 i hi).2
                  dsimp only
                  rw [h2, h1, naiveNum_node]
                  ring
              · intro i hi
                constructor
                · dsimp only
                  rw [(hb.2 i hi).1, (ha.2 i hi).1]
                · dsimp only
                  rw [(hb.2 i hi).2, (ha.2 i hi).2]
        | leaf rs =>
            cases qn with
            | leaf qs =>
                rw [canonical_base_eq p qs rs S r hdet' hmc]
                constructor
                · intro i hi
                  simp only [points_leaf] at hi
                  constructor <;>
                    simp [NWRCdeBase_, hi, naiveDen, naiveNum]
                · intro i hi
                  simp only [points_leaf] at hi
                  constructor <;> simp [NWRCdeBase_, hi]
            | node ql qr =>
                have hndparts : ql.points.Nodup ∧ qr.points.Nodup
                    ∧ ql.points.Disjoint qr.points := by
                  simpa [List.nodup_append] using hnd
                have hszl : ql.size + (Tree.leaf rs).size ≤ n := by
                  have := size_pos qr
                  simp [Tree.size] at hsz ⊢
                  omega
                have hszr : qr.size + (Tree.leaf rs).size ≤ n := by
                  have := size_pos ql
                  simp [Tree.size] at hsz ⊢
                  omega
                by_cases hord : p.dlo ql (.leaf rs) ≤ p.dlo qr (.leaf rs)
                · rw [canonical_qsplit_near_eq p ql qr rs S r hdet' hmc hord]
                  have ha := ih ql (.leaf rs) S r hszl hndparts.1
                  have hb := ih qr (.leaf rs) S
                    (NWRCdeCanonical_ p ql (.leaf rs) S r).2.2 hszr hndparts.2.1
                  constructor
                  · intro i hi
                    rcases List.mem_append.1 (by simpa using hi) with hiq | hiq
                    · have hnotin : i ∉ qr.points := fun hc => hndparts.2.2 hiq hc
                      constructor
                      · dsimp only
                        rw [(hb.2 i hnotin).1, (ha.1 i hiq).1]
                      · dsimp only
                        rw [(hb.2 i hnotin).2, (ha.1 i hiq).2]
                    · have hnotin : i ∉ ql.points := fun hc => hndparts.2.2 hc hiq
                      constructor
                      · dsimp only
                        rw [(hb.1 i hiq).1, (ha.2 i hnotin).1]
                      · dsimp only
                        rw [(hb.1 i hiq).2, (ha.2 i hnotin).2]
                  · intro i hi
                    have hi1 : i ∉ ql.points := fun hc =>
                      hi (by simpa using List.mem_append.2 (Or.inl hc))
                    have hi2 : i ∉ qr.points := fun hc =>
                      hi (by simpa using List.mem_append.2 (Or.inr hc))
                    constructor
                    · dsimp only
                      rw [(hb.2 i hi2).1, (ha.2 i hi1).1]
                    · dsimp only
                      rw [(hb.2 i hi2).2, (ha.2 i hi1).2]
                · rw [canonical_qsplit_far_eq p ql qr rs S r hdet' hmc hord]
                  have ha := ih qr (.leaf rs) S r hszr hndparts.2.1
                  have hb := ih ql (.leaf rs) S
                    (NWRCdeCanonical_ p qr (.leaf rs) S r).2.2 hszl hndparts.1
                  constructor
                  · intro i hi
                    rcases List.mem_append.1 (by simpa using hi) with hiq | hiq
                    · have hnotin : i ∉ qr.points := fun hc => hndparts.2.2 hiq hc
                      constructor
                      · dsimp only
                        rw [(hb.1 i hiq).1, (ha.2 i hnotin).1]
                      · dsimp only
                        rw [(hb.1 i hiq).2, (ha.2 i hnotin).2]
                    · have hnotin : i ∉ ql.points := fun hc => hndparts.2.2 hc hiq
                      constructor
                      · dsimp only
                        rw [(hb.2 i hnotin).1, (ha.1 i hiq).1]
                      · dsimp only
                        rw [(hb.2 i hnotin).2, (ha.1 i hiq).2]
                  · intro i hi
                    have hi1 : i ∉ ql.points := fun hc =>
                      hi (by simpa using List.mem_append.2 (Or.inl hc))
                    have hi2 : i ∉ qr.points := fun hc =>
                      hi (by simpa using List.mem_append.2 (Or.inr hc))
                    constructor
                    · dsimp only
                      rw [(hb.2 i hi1).1, (ha.2 i hi2).1]
                    · dsimp only
                      rw [(hb.2 i hi1).2, (ha.2 i hi2).2]

/-- C1: running the engine with relative error 0 and probability 1 on any
query tree with distinct points and any reference tree, starting from the
zero-initialized accumulators and the widest initial summary, produces for
every query point the same numerator and denominator as the naive exhaustive
pairwise computation (the sum over all reference points of
kernel(squaredDistance)*target for the numerator and kernel(squaredDistance)
for the denominator), given a monotonically non-increasing kernel and
bounding regions that really bound the pairwise squared distances. -/
theorem canonical_exact (p : DualParams) (qroot rroot : Tree)
    (hε : p.relError = 0) (hp : 1 ≤ p.prob)
    (hmono : ∀ a b : ℚ, a ≤ b → p.K b ≤ p.K a)
    (hbounds : ∀ qs rs : Tree, ∀ i ∈ qs.points, ∀ j ∈ rs.points,
      p.dlo qs rs ≤ p.dist2 i j ∧ p.dist2 i j ≤ p.dhi qs rs)
    (hnd : qroot.points.Nodup) :
    ∀ i ∈ qroot.points,
      (NWRCdeCanonical_ p qroot rroot (initSummary p) zeroResults).2.2.den i
        = naiveDen p i rroot
      ∧ (NWRCdeCanonical_ p qroot rroot (initSummary p) zeroResults).2.2.num i
        = naiveNum p i rroot := by
  intro i hi
  have h := (canonical_exact_aux p hε hp hmono hbounds
    (qroot.size + rroot.size) qroot rroot (initSummary p) zeroResults
    le_rfl hnd).1 i hi
  simpa [zeroResults] using h

/-- Closed instance of canonical_exact on a one-point query and reference
set with a constant kernel. -/
theorem canonical_exact_witness :
    (NWRCdeCanonical_ exactParams (.leaf [0]) (.leaf [0])
        (initSummary exactParams) zeroResults).2.2.den 0
      = naiveDen exactParams 0 (.leaf [0])
    ∧ (NWRCdeCanonical_ exactParams (.leaf [0]) (.leaf [0])
        (initSummary exactParams) zeroResults).2.2.num 0
      = naiveNum exactParams 0 (.leaf [0]) :=
  canonical_exact exactParams (.leaf [0]) (.leaf [0]) rfl le_rfl
    (fun _ _ _ => le_refl 1)
    (fun _ _ _ _ _ _ => ⟨le_refl 0, le_refl 0⟩)
    (by simp) 0 (by simp)

/-! C5: Compute and the query permutation. -/

/-- The permutation swapping the two query points: the tree build placed the
caller's point 1 at permuted position 0 and vice versa. -/
def swapPerm : Nat → Nat := fun i => 1 - i

/-- C5 counterexample: with two query points at squared distances 0 and 1
from the single reference point, a tree build that swaps them, relative
error 0 and probability 1, Compute leaves slot 0 holding the value 1/2 of
the far point instead of the value 1 that the naive computation assigns to
the caller's point 0 — the permutation produced by the query-tree build is
never applied. -/
theorem compute_not_depermuted :
    (compute noPruneParams swapPerm (.leaf [0, 1]) (.leaf [0])).den 0 = 1/2
    ∧ naiveDen noPruneParams 0 (.leaf [0]) = 1
    ∧ ((1 : ℚ)/2) ≠ 1 := by
  refine ⟨?_, by norm_num [naiveDen, noPruneParams], by norm_num⟩
  show (NWRCdeCanonical_
      { noPruneParams with dist2 := fun i j => noPruneParams.dist2 (swapPerm i) j }
      (.leaf [0, 1]) (.leaf [0]) (initSummary noPruneParams) zeroResults).2.2.den 0
    = 1/2
  rw [canonical_base_eq _ _ _ _ _
    (by norm_num [detPrune, epsShare, kernelLo, kernelHi, initSummary,
      noPruneParams, Tree.count])
    (by norm_num [noPruneParams, Tree.count])]
  norm_num [NWRCdeBase_, zeroResults, noPruneParams, swapPerm]

/-- C5 (amended): Compute returns the per-point results in the query tree's
permuted order: with relative error 0 and probability 1, the result slot i
holds the naive numerator and denominator of the query point at permuted
position i, that is of original index ofn i (old_from_new_queries of i) —
the saved permutation is never applied, so only for the identity permutation
does slot i hold the caller's point i. -/
theorem compute_returns_permuted_order (p : DualParams) (ofn : Nat → Nat)
    (qroot rroot : Tree)
    (hε : p.relError = 0) (hp : 1 ≤ p.prob)
    (hmono : ∀ a b : ℚ, a ≤ b → p.K b ≤ p.K a)
    (hbounds : ∀ qs rs : Tree, ∀ i ∈ qs.points, ∀ j ∈ rs.points,
      p.dlo qs rs ≤ p.dist2 (ofn i) j ∧ p.dist2 (ofn i) j ≤ p.dhi qs rs)
    (hnd : qroot.points.Nodup) :
    ∀ i ∈ qroot.points,
      (compute p ofn qroot rroot).den i = naiveDen p (ofn i) rroot
      ∧ (compute p ofn qroot rroot).num i = naiveNum p (ofn i) rroot := by
  intro i hi
  have h := (canonical_exact_aux { p with dist2 := fun i j => p.dist2 (ofn i) j }
      hε hp hmono hbounds (qroot.size + rroot.size) qroot rroot
      (initSummary p) zeroResults le_rfl hnd).1 i hi
  have e1 : compute p ofn qroot rroot
      = (NWRCdeCanonical_ { p with dist2 := fun i j => p.dist2 (ofn i) j }
          qroot rroot (initSummary p) zeroResults).2.2 := rfl
  have e2 : naiveDen { p with dist2 := fun i j => p.dist2 (ofn i) j } i rroot
      = naiveDen p (ofn i) rroot := rfl
  have e3 : naiveNum { p with dist2 := fun i j => p.dist2 (ofn i) j } i rroot
      = naiveNum p (ofn i) rroot := rfl
  constructor
  · rw [e1, h.1, e2]
    simp [zeroResults]
  · rw [e1, h.2, e3]
    simp [zeroResults]

/-- Closed instance of compute_returns_permuted_order with the identity
permutation on a one-point query set. -/
theorem compute_returns_permuted_order_witness :
    (compute exactParams (fun i => i) (.leaf [0]) (.leaf [0])).den 0
      = naiveDen exactParams ((fun i : Nat => i) 0) (.leaf [0])
    ∧ (compute exactParams (fun i => i) (.leaf [0]) (.leaf [0])).num 0
      = naiveNum exactParams ((fun i : Nat => i) 0) (.leaf [0]) :=
  compute_returns_permuted_order exactParams (fun i => i) (.leaf [0]) (.leaf [0])
    rfl le_rfl (fun _ _ _ => le_refl 1)
    (fun _ _ _ _ _ _ => ⟨le_refl 0, le_refl 0⟩) (by simp) 0 (by simp)

/-! C7: the QuerySummary bracket brackets the truly achievable value and
only tightens as the recursion proceeds. -/

lemma refTargetSum_nonneg (p : DualParams) (rn : Tree) (ht0 : ∀ j, 0 ≤ p.t j) :
    0 ≤ refTargetSum p rn := by
  refine List.sum_nonneg ?_
  intro x hx
  rcases List.mem_map.1 hx with ⟨j, _, rfl⟩
  exact ht0 j

lemma refTargetSum_le_count (p : DualParams) (rn : Tree)
    (ht1 : ∀ j, p.t j ≤ 1) : refTargetSum p rn ≤ (rn.count : ℚ) := by
  have h1 : (rn.points.map p.t).sum ≤ (rn.points.map (fun _ => (1 : ℚ))).sum :=
    List.sum_le_sum (fun j _ => ht1 j)
  rw [sum_map_const_eq (fun _ _ => rfl)] at h1
  simpa [refTargetSum, Tree.count] using h1

lemma naiveDen_ge (p : DualParams) (qn rn : Tree)
    (hmono : ∀ a b : ℚ, a ≤ b → p.K b ≤ p.K a)
    (hb : ∀ i ∈ qn.points, ∀ j ∈ rn.points,
      p.dlo qn rn ≤ p.dist2 i j ∧ p.dist2 i j ≤ p.dhi qn rn)
    (i : Nat) (hi : i ∈ qn.points) :
    (rn.count : ℚ) * kernelLo p qn rn ≤ naiveDen p i rn := by
  have h1 : (rn.points.map (fun _ => kernelLo p qn rn)).sum
      ≤ (rn.points.map (fun j => p.K (p.dist2 i j))).sum :=
    List.sum_le_sum (fun j hj => hmono _ _ (hb i hi j hj).2)
  rw [sum_map_const_eq (fun _ _ => rfl)] at h1
  simpa [naiveDen, Tree.count] using h1

lemma naiveDen_le (p : DualParams) (qn rn : Tree)
    (hmono : ∀ a b : ℚ, a ≤ b → p.K b ≤ p.K a)
    (hb : ∀ i ∈ qn.points, ∀ j ∈ rn.points,
      p.dlo qn rn ≤ p.dist2 i j ∧ p.dist2 i j ≤ p.dhi qn rn)
    (i : Nat) (hi : i ∈ qn.points) :
    naiveDen p i rn ≤ (rn.count : ℚ) * kernelHi p qn rn := by
  have h1 : (rn.points.map (fun j => p.K (p.dist2 i j))).sum
      ≤ (rn.points.map (fun _ => kernelHi p qn rn)).sum :=
    List.sum_le_sum (fun j hj => hmono _ _ (hb i hi j hj).1)
  rw [sum_map_const_eq (fun _ _ => rfl)] at h1
  simpa [naiveDen, Tree.count] using h1

lemma naiveNum_ge (p : DualParams) (qn rn : Tree)
    (hmono : ∀ a b : ℚ, a ≤ b → p.K b ≤ p.K a)
    (ht0 : ∀ j, 0 ≤ p.t j)
    (hb : ∀ i ∈ qn.points, ∀ j ∈ rn.points,
      p.dlo qn rn ≤ p.dist2 i j ∧ p.dist2 i j ≤ p.dhi qn rn)
    (i : Nat) (hi : i ∈ qn.points) :
    refTargetSum p rn * kernelLo p qn rn ≤ naiveNum p i rn := by
  have h1 : (rn.points.map (fun j => kernelLo p qn rn * p.t j)).sum
      ≤ (rn.points.map (fun j => p.K (p.dist2 i j) * p.t j)).sum :=
    List.sum_le_sum (fun j hj =>
      mul_le_mul_of_nonneg_right (hmono _ _ (hb i hi j hj).2) (ht0 j))
  rw [List.sum_map_mul_left] at h1
  rw [naiveNum, refTargetSum]
  linarith [h1]

lemma naiveNum_le (p : DualParams) (qn rn : Tree)
    (hmono : ∀ a b : ℚ, a ≤ b → p.K b ≤ p.K a)
    (ht0 : ∀ j, 0 ≤ p.t j)
    (hb : ∀ i ∈ qn.points, ∀ j ∈ rn.points,
      p.dlo qn rn ≤ p.dist2 i j ∧ p.dist2 i j ≤ p.dhi qn rn)
    (i : Nat) (hi : i ∈ qn.points) :
    naiveNum p i rn ≤ refTargetSum p rn * kernelHi p qn rn := by
  have h1 : (rn.points.map (fun j => p.K (p.dist2 i j) * p.t j)).sum
      ≤ (rn.points.map (fun j => kernelHi p qn rn * p.t j)).sum :=
    List.sum_le_sum (fun j hj =>
      mul_le_mul_of_nonneg_right (hmono _ _ (hb i hi j hj).1) (ht0 j))
  rw [List.sum_map_mul_left] at h1
  rw [naiveNum, refTargetSum]
  linarith [h1]

/-- One tightening step: the tightened bracket is nested inside the old one
and brackets the processed mass (the already-accounted value a plus this
node's naive contribution), keeping slack m * kmax for the outstanding
mass. -/
lemma tighten_step (p : DualParams) (qn rn : Tree) (S : Summary)
    (aD aN : Nat → ℚ) (m : ℚ)
    (hmono : ∀ a b : ℚ, a ≤ b → p.K b ≤ p.K a)
    (hK0 : ∀ x, 0 ≤ p.K x) (hKmax : ∀ x, p.K x ≤ p.kmax)
    (ht0 : ∀ j, 0 ≤ p.t j) (ht1 : ∀ j, p.t j ≤ 1)
    (hb : ∀ i ∈ qn.points, ∀ j ∈ rn.points,
      p.dlo qn rn ≤ p.dist2 i j ∧ p.dist2 i j ≤ p.dhi qn rn)
    (hentry : ∀ i ∈ qn.points,
      S.denLo ≤ aD i ∧ aD i + ((rn.count : ℚ) + m) * p.kmax ≤ S.denHi
      ∧ S.numLo ≤ aN i ∧ aN i + ((rn.count : ℚ) + m) * p.kmax ≤ S.numHi) :
    (S.denLo ≤ (tightenBounds p qn rn S).denLo
      ∧ (tightenBounds p qn rn S).denHi ≤ S.denHi
      ∧ S.numLo ≤ (tightenBounds p qn rn S).numLo
      ∧ (tightenBounds p qn rn S).numHi ≤ S.numHi)
    ∧ (∀ i ∈ qn.points,
        (tightenBounds p qn rn S).denLo ≤ aD i + naiveDen p i rn
        ∧ aD i + naiveDen p i rn + m * p.kmax ≤ (tightenBounds p qn rn S).denHi
        ∧ (tightenBounds p qn rn S).numLo ≤ aN i + naiveNum p i rn
        ∧ aN i + naiveNum p i rn + m * p.kmax
            ≤ (tightenBounds p qn rn S).numHi) := by
  have hcnt : (0 : ℚ) ≤ (rn.count : ℚ) := Nat.cast_nonneg _
  have hkLo : 0 ≤ kernelLo p qn rn := hK0 _
  have hkHi : 0 ≤ kernelHi p qn rn := hK0 _
  have hkLoM : kernelLo p qn rn ≤ p.kmax := hKmax _
  have hkHiM : kernelHi p qn rn ≤ p.kmax := hKmax _
  have hts0 : 0 ≤ refTargetSum p rn := refTargetSum_nonneg p rn ht0
  have htsc : refTargetSum p rn ≤ (rn.count : ℚ) := refTargetSum_le_count p rn ht1
  constructor
  · refine ⟨?_, ?_, ?_, ?_⟩ <;> simp only [tightenBounds]
    · nlinarith
    · nlinarith
    · nlinarith
    · nlinarith
  · intro i hi
    obtain ⟨e1, e2, e3, e4⟩ := hentry i hi
    have d1 := naiveDen_ge p qn rn hmono hb i hi
    have d2 := naiveDen_le p qn rn hmono hb i hi
    have n1 := naiveNum_ge p qn rn hmono ht0 hb i hi
    have n2 := naiveNum_le p qn rn hmono ht0 hb i hi
    refine ⟨?_, ?_, ?_, ?_⟩ <;> simp only [tightenBounds]
    · linarith
    · nlinarith
    · linarith
    · nlinarith

/-- The summary induction: under a monotone nonnegative kernel bounded by
kmax and targets in the unit interval, a call of the recursion on a summary
that brackets the already-accounted value a (with slack for the reference
node's own mass plus m outstanding points) returns a summary nested inside
the old one that brackets a plus the reference node's naive contribution,
with slack m * kmax retained for the outstanding mass. -/
lemma canonical_summary_aux (p : DualParams)
    (hmono : ∀ a b : ℚ, a ≤ b → p.K b ≤ p.K a)
    (hK0 : ∀ x, 0 ≤ p.K x) (hKmax : ∀ x, p.K x ≤ p.kmax)
    (ht0 : ∀ j, 0 ≤ p.t j) (ht1 : ∀ j, p.t j ≤ 1)
    (hbounds : ∀ qs rs : Tree, ∀ i ∈ qs.points, ∀ j ∈ rs.points,
      p.dlo qs rs ≤ p.dist2 i j ∧ p.dist2 i j ≤ p.dhi qs rs) :
    ∀ (n : Nat) (qn rn : Tree) (S : Summary) (r : QueryResults)
      (aD aN : Nat → ℚ) (m : ℚ),
      qn.size + rn.size ≤ n → 0 ≤ m →
      (∀ i ∈ qn.points,
        S.denLo ≤ aD i ∧ aD i + ((rn.count : ℚ) + m) * p.kmax ≤ S.denHi
        ∧ S.numLo ≤ aN i ∧ aN i + ((rn.count : ℚ) + m) * p.kmax ≤ S.numHi) →
      (S.denLo ≤ (NWRCdeCanonical_ p qn rn S r).2.1.denLo
        ∧ (NWRCdeCanonical_ p qn rn S r).2.1.denHi ≤ S.denHi
        ∧ S.numLo ≤ (NWRCdeCanonical_ p qn rn S r).2.1.numLo
        ∧ (NWRCdeCanonical_ p qn rn S r).2.1.numHi ≤ S.numHi)
      ∧ (∀ i ∈ qn.points,
          (NWRCdeCanonical_ p qn rn S r).2.1.denLo ≤ aD i + naiveDen p i rn
          ∧ aD i + naiveDen p i rn + m * p.kmax
              ≤ (NWRCdeCanonical_ p qn rn S r).2.1.denHi
          ∧ (NWRCdeCanonical_ p qn rn S r).2.1.numLo ≤ aN i + naiveNum p i rn
          ∧ aN i + naiveNum p i rn + m * p.kmax
              ≤ (NWRCdeCanonical_ p qn rn S r).2.1.numHi) := by
  intro n
  induction n with
  | zero =>
      intro qn rn S r aD aN m hsz
      exact absurd hsz (by have h1 := size_pos qn; have h2 := size_pos rn; omega)
  | succ n ih =>
      intro qn rn S r aD aN m hsz hm hentry
      by_cases hdet : detPrune p S qn rn = true
      · rw [canonical_prune_eq p qn rn S r hdet]
        exact tighten_step p qn rn S aD aN m hmono hK0 hKmax ht0 ht1
          (hbounds qn rn) hentry
      · have hdet' : detPrune p S qn rn = false := by simpa using hdet
        by_cases hmc : p.prob < 1 ∧ p.mcMinCount ≤ rn.count
        · rw [canonical_mc_eq p qn rn S r hdet' hmc]
          exact tighten_step p qn rn S aD aN m hmono hK0 hKmax ht0 ht1
            (hbounds qn rn) hentry
        · cases rn with
          | node rl rr =>
              have hszl : qn.size + rl.size ≤ n := by
                have := size_pos rr
                simp [Tree.size] at hsz ⊢
                omega
              have hszr : qn.size + rr.size ≤ n := by
                have := size_pos rl
                simp [Tree.size] at hsz ⊢
                omega
              have hcq : ((Tree.node rl rr).count : ℚ)
                  = (rl.count : ℚ) + (rr.count : ℚ) := by
                rw [count_node]
                push_cast
                ring
              by_cases hord : p.dlo qn rl ≤ p.dlo qn rr
              · rw [canonical_rsplit_near_eq p qn rl rr S r hdet' hmc hord]
                have entry1 : ∀ i ∈ qn.points,
                    S.denLo ≤ aD i
                    ∧ aD i + ((rl.count : ℚ) + (m + (rr.count : ℚ))) * p.kmax
                        ≤ S.denHi
                    ∧ S.numLo ≤ aN i
                    ∧ aN i + ((rl.count : ℚ) + (m + (rr.count : ℚ))) * p.kmax
                        ≤ S.numHi := by
                  intro i hi
                  obtain ⟨e1, e2, e3, e4⟩ := hentry i hi
                  have he : ((rl.count : ℚ) + (m + (rr.count : ℚ))) * p.kmax
                      = (((Tree.node rl rr).count : ℚ) + m) * p.kmax := by
                    rw [hcq]
                    ring
                  rw [he]
                  exact ⟨e1, e2, e3, e4⟩
                have hm1 : (0 : ℚ) ≤ m + (rr.count : ℚ) := by positivity
                have ihA := ih qn rl S r aD aN (m + (rr.count : ℚ)) hszl hm1 entry1
                have entry2 : ∀ i ∈ qn.points,
                    (NWRCdeCanonical_ p qn rl S r).2.1.denLo
                        ≤ aD i + naiveDen p i rl
                    ∧ (aD i + naiveDen p i rl)
                        + ((rr.count : ℚ) + m) * p.kmax
                        ≤ (NWRCdeCanonical_ p qn rl S r).2.1.denHi
                    ∧ (NWRCdeCanonical_ p qn rl S r).2.1.numLo
                        ≤ aN i + naiveNum p i rl
                    ∧ (aN i + naiveNum p i rl)
                        + ((rr.count : ℚ) + m) * p.kmax
                        ≤ (NWRCdeCanonical_ p qn rl S r).2.1.numHi := by
                  intro i hi
                  obtain ⟨f1, f2, f3, f4⟩ := ihA.2 i hi
                  refine ⟨f1, by nlinarith, f3, by nlinarith⟩
                have ihB := ih qn rr (NWRCdeCanonical_ p qn rl S r).2.1
                  (NWRCdeCanonical_ p qn rl S r).2.2
                  (fun i => aD i + naiveDen p i rl)
                  (fun i => aN i + naiveNum p i rl) m hszr hm entry2
                constructor
                · obtain ⟨g1, g2, g3, g4⟩ := ihA.1
                  obtain ⟨k1, k2, k3, k4⟩ := ihB.1
                  exact ⟨le_trans g1 k1, le_trans k2 g2,
                    le_trans g3 k3, le_trans k4 g4⟩
                · intro i hi
                  obtain ⟨k1, k2, k3, k4⟩ := ihB.2 i hi
                  dsimp only at k1 k2 k3 k4 ⊢
                  rw [naiveDen_node, naiveNum_node]
                  refine ⟨by linarith, by linarith, by linarith, by linarith⟩
              · rw [canonical_rsplit_far_eq p qn rl rr S r hdet' hmc hord]
                have entry1 : ∀ i ∈ qn.points,
                    S.denLo ≤ aD i
                    ∧ aD i + ((rr.count : ℚ) + (m + (rl.count : ℚ))) * p.kmax
                        ≤ S.denHi
                    ∧ S.numLo ≤ aN i
                    ∧ aN i + ((rr.count : ℚ) + (m + (rl.count : ℚ))) * p.kmax
                        ≤ S.numHi := by
                  intro i hi
                  obtain ⟨e1, e2, e3, e4⟩ := hentry i hi
                  have he : ((rr.count : ℚ) + (m + (rl.count : ℚ))) * p.kmax
                      = (((Tree.node rl rr).count : ℚ) + m) * p.kmax := by
                    rw [hcq]
                    ring
                  rw [he]
                  exact ⟨e1, e2, e3, e4⟩
                have hm1 : (0 : ℚ) ≤ m + (rl.count : ℚ) := by positivity
                have ihA := ih qn rr S r aD aN (m + (rl.count : ℚ)) hszr hm1 entry1
                have entry2 : ∀ i ∈ qn.points,
                    (NWRCdeCanonical_ p qn rr S r).2.1.denLo
                        ≤ aD i + naiveDen p i rr
                    ∧ (aD i + naiveDen p i rr)
                        + ((rl.count : ℚ) + m) * p.kmax
                        ≤ (NWRCdeCanonical_ p qn rr S r).2.1.denHi
                    ∧ (NWRCdeCanonical_ p qn rr S r).2.1.numLo
                        ≤ aN i + naiveNum p i rr
                    ∧ (aN i + naiveNum p i rr)
                        + ((rl.count : ℚ) + m) * p.kmax
                        ≤ (NWRCdeCanonical_ p qn rr S r).2.1.numHi := by
                  intro i hi
                  obtain ⟨f1, f2, f3, f4⟩ := ihA.2 i hi
                  refine ⟨f1, by nlinarith, f3, by nlinarith⟩
                have ihB := ih qn rl (NWRCdeCanonical_ p qn rr S r).2.1
                  (NWRCdeCanonical_ p qn rr S r).2.2
                  (fun i => aD i + naiveDen p i rr)
                  (fun i => aN i + naiveNum p i rr) m hszl hm entry2
                constructor
                · obtain ⟨g1, g2, g3, g4⟩ := ihA.1
                  obtain ⟨k1, k2, k3, k4⟩ := ihB.1
                  exact ⟨le_trans g1 k1, le_trans k2 g2,
                    le_trans g3 k3, le_trans k4 g4⟩
                · intro i hi
                  obtain ⟨k1, k2, k3, k4⟩ := ihB.2 i hi
                  dsimp only at k1 k2 k3 k4 ⊢
                  rw [naiveDen_node, naiveNum_node]
                  refine ⟨by linarith, by linarith, by linarith, by linarith⟩
          | leaf rs =>
              cases qn with
              | leaf qs =>
                  rw [canonical_base_eq p qs rs S r hdet' hmc]
                  exact tighten_step p (.leaf qs) (.leaf rs) S aD aN m hmono
                    hK0 hKmax ht0 ht1 (hbounds (.leaf qs) (.leaf rs)) hentry
              | node ql qr =>
                  have hszl : ql.size + (Tree.leaf rs).size ≤ n := by
                    have := size_pos qr
                    simp [Tree.size] at hsz ⊢
                    omega
                  have hszr : qr.size + (Tree.leaf rs).size ≤ n := by
                    have := size_pos ql
                    simp [Tree.size] at hsz ⊢
                    omega
                  have entryL : ∀ i ∈ ql.points,
                      S.denLo ≤ aD i
                      ∧ aD i + (((Tree.leaf rs).count : ℚ) + m) * p.kmax ≤ S.denHi
                      ∧ S.numLo ≤ aN i
                      ∧ aN i + (((Tree.leaf rs).count : ℚ) + m) * p.kmax
                          ≤ S.numHi :=
                    fun i hi => hentry i (by
                      simp only [points_node, List.mem_append]
                      exact Or.inl hi)
                  have entryR : ∀ i ∈ qr.points,
                      S.denLo ≤ aD i
                      ∧ aD i + (((Tree.leaf rs).count : ℚ) + m) * p.kmax ≤ S.denHi
                      ∧ S.numLo ≤ aN i
                      ∧ aN i + (((Tree.leaf rs).count : ℚ) + m) * p.kmax
                          ≤ S.numHi :=
                    fun i hi => hentry i (by
                      simp only [points_node, List.mem_append]
                      exact Or.inr hi)
                  by_cases hord : p.dlo ql (.leaf rs) ≤ p.dlo qr (.leaf rs)
                  · rw [canonical_qsplit_near_eq p ql qr rs S r hdet' hmc hord]
                    have ihA := ih ql (.leaf rs) S r aD aN m hszl hm entryL
                    have ihB := ih qr (.leaf rs) S
                      (NWRCdeCanonical_ p ql (.leaf rs) S r).2.2 aD aN m
                      hszr hm entryR
                    constructor
                    · exact ⟨le_min ihA.1.1 ihB.1.1,
                        max_le ihA.1.2.1 ihB.1.2.1,
                        le_min ihA.1.2.2.1 ihB.1.2.2.1,
                        max_le ihA.1.2.2.2 ihB.1.2.2.2⟩
                    · intro i hi
                      rcases List.mem_append.1 (by simpa using hi) with hiq | hiq
                      · obtain ⟨f1, f2, f3, f4⟩ := ihA.2 i hiq
                        exact ⟨le_trans (min_le_left _ _) f1,
                          le_trans f2 (le_max_left _ _),
                          le_trans (min_le_left _ _) f3,
                          le_trans f4 (le_max_left _ _)⟩
                      · obtain ⟨f1, f2, f3, f4⟩ := ihB.2 i hiq
                        exact ⟨le_trans (min_le_right _ _) f1,
                          le_trans f2 (le_max_right _ _),
                          le_trans (min_le_right _ _) f3,
                          le_trans f4 (le_max_right _ _)⟩
                  · rw [canonical_qsplit_far_eq p ql qr rs S r hdet' hmc hord]
                    have ihA := ih qr (.leaf rs) S r aD aN m hszr hm entryR
                    have ihB := ih ql (.leaf rs) S
                      (NWRCdeCanonical_ p qr (.leaf rs) S r).2.2 aD aN m
                      hszl hm entryL
                    constructor
                    · exact ⟨le_min ihA.1.1 ihB.1.1,
                        max_le ihA.1.2.1 ihB.1.2.1,
                        le_min ihA.1.2.2.1 ihB.1.2.2.1,
                        max_le ihA.1.2.2.2 ihB.1.2.2.2⟩
                    · intro i hi
                      rcases List.mem_append.1 (by simpa using hi) with hiq | hiq
                      · obtain ⟨f1, f2, f3, f4⟩ := ihB.2 i hiq
                        exact ⟨le_trans (min_le_right _ _) f1,
                          le_trans f2 (le_max_right _ _),
                          le_trans (min_le_right _ _) f3,
                          le_trans f4 (le_max_right _ _)⟩
                      · obtain ⟨f1, f2, f3, f4⟩ := ihA.2 i hiq
                        exact ⟨le_trans (min_le_left _ _) f1,
                          le_trans f2 (le_max_left _ _),
                          le_trans (min_le_left _ _) f3,
                          le_trans f4 (le_max_left _ _)⟩

/-- C7: for a fixed query node, the QuerySummary bracket only tightens
across the canonical recursion — the returned bracket is nested inside the
entry bracket, so its width is non-increasing — and it brackets the truly
achievable value for every point of the query node: entering with a bracket
that covers the already-accounted value (with slack for the whole reference
node's mass), the recursion exits with a bracket covering the accounted
value plus the reference node's exact naive contribution, for both the
numerator and the denominator. -/
theorem canonical_summary_invariant (p : DualParams) (qn rn : Tree)
    (S : Summary) (r : QueryResults) (aD aN : Nat → ℚ)
    (hmono : ∀ a b : ℚ, a ≤ b → p.K b ≤ p.K a)
    (hK0 : ∀ x, 0 ≤ p.K x) (hKmax : ∀ x, p.K x ≤ p.kmax)
    (ht0 : ∀ j, 0 ≤ p.t j) (ht1 : ∀ j, p.t j ≤ 1)
    (hbounds : ∀ qs rs : Tree, ∀ i ∈ qs.points, ∀ j ∈ rs.points,
      p.dlo qs rs ≤ p.dist2 i j ∧ p.dist2 i j ≤ p.dhi qs rs)
    (hentry : ∀ i ∈ qn.points,
      S.denLo ≤ aD i ∧ aD i + (rn.count : ℚ) * p.kmax ≤ S.denHi
      ∧ S.numLo ≤ aN i ∧ aN i + (rn.count : ℚ) * p.kmax ≤ S.numHi) :
    (S.denLo ≤ (NWRCdeCanonical_ p qn rn S r).2.1.denLo
      ∧ (NWRCdeCanonical_ p qn rn S r).2.1.denHi ≤ S.denHi
      ∧ S.numLo ≤ (NWRCdeCanonical_ p qn rn S r).2.1.numLo
      ∧ (NWRCdeCanonical_ p qn rn S r).2.1.numHi ≤ S.numHi)
    ∧ ((NWRCdeCanonical_ p qn rn S r).2.1.denHi
          - (NWRCdeCanonical_ p qn rn S r).2.1.denLo ≤ S.denHi - S.denLo
      ∧ (NWRCdeCanonical_ p qn rn S r).2.1.numHi
          - (NWRCdeCanonical_ p qn rn S r).2.1.numLo ≤ S.numHi - S.numLo)
    ∧ (∀ i ∈ qn.points,
        (NWRCdeCanonical_ p qn rn S r).2.1.denLo ≤ aD i + naiveDen p i rn
        ∧ aD i + naiveDen p i rn ≤ (NWRCdeCanonical_ p qn rn S r).2.1.denHi
        ∧ (NWRCdeCanonical_ p qn rn S r).2.1.numLo ≤ aN i + naiveNum p i rn
        ∧ aN i + naiveNum p i rn
            ≤ (NWRCdeCanonical_ p qn rn S r).2.1.numHi) := by
  have hentry0 : ∀ i ∈ qn.points,
      S.denLo ≤ aD i ∧ aD i + ((rn.count : ℚ) + 0) * p.kmax ≤ S.denHi
      ∧ S.numLo ≤ aN i ∧ aN i + ((rn.count : ℚ) + 0) * p.kmax ≤ S.numHi := by
    intro i hi
    obtain ⟨e1, e2, e3, e4⟩ := hentry i hi
    refine ⟨e1, by nlinarith, e3, by nlinarith⟩
  have h := canonical_summary_aux p hmono hK0 hKmax ht0 ht1 hbounds
    (qn.size + rn.size) qn rn S r aD aN 0 le_rfl le_rfl hentry0
  obtain ⟨⟨g1, g2, g3, g4⟩, hc⟩ := h
  refine ⟨⟨g1, g2, g3, g4⟩, ⟨by linarith, by linarith⟩, ?_⟩
  intro i hi
  obtain ⟨f1, f2, f3, f4⟩ := hc i hi
  exact ⟨f1, by linarith, f3, by linarith⟩

/-- Closed instance of canonical_summary_invariant on a one-point query and
reference pair with a constant kernel. -/
theorem canonical_summary_invariant_witness :
    ((initSummary exactParams).denLo
        ≤ (NWRCdeCanonical_ exactParams (.leaf [0]) (.leaf [0])
            (initSummary exactParams) zeroResults).2.1.denLo)
    ∧ ((NWRCdeCanonical_ exactParams (.leaf [0]) (.leaf [0])
          (initSummary exactParams) zeroResults).2.1.denHi
          - (NWRCdeCanonical_ exactParams (.leaf [0]) (.leaf [0])
              (initSummary exactParams) zeroResults).2.1.denLo
        ≤ (initSummary exactParams).denHi - (initSummary exactParams).denLo)
    ∧ ((NWRCdeCanonical_ exactParams (.leaf [0]) (.leaf [0])
          (initSummary exactParams) zeroResults).2.1.denLo
        ≤ 0 + naiveDen exactParams 0 (.leaf [0])) := by
  have h := canonical_summary_invariant exactParams (.leaf [0]) (.leaf [0])
    (initSummary exactParams) zeroResults (fun _ => 0) (fun _ => 0)
    (fun _ _ _ => le_refl 1) (fun _ => zero_le_one) (fun _ => le_refl 1)
    (fun _ => zero_le_one) (fun _ => le_refl 1)
    (fun _ _ _ _ _ _ => ⟨le_refl 0, le_refl 0⟩)
    (by intro i hi; norm_num [initSummary, exactParams, Tree.count])
  exact ⟨h.1.1, h.2.1.1, (h.2.2 0 (by simp)).1⟩

end NWRCdeSpec
